import Mathlib

/-!
# Verification of the `smart_cmp_docx` comparison engine

A shallow embedding of `smart_cmp_docx.py` in Lean 4.  Paragraph/word text
is modelled as `List Nat` of Unicode code points (Python strings are
sequences of code points).  Case folding and character classes are modelled
at ASCII precision, which is exact for every claim considered here.
-/

set_option autoImplicit false

namespace SmartCmp

/-- Code points of a string literal, for concrete test inputs. -/
def strN (s : String) : List Nat := s.data.map (fun c => c.toNat)

/-- ASCII decimal digit, the `\d` of the marker regex `\(\d+\)`. -/
def isDigitN (c : Nat) : Bool := decide (48 ≤ c ∧ c ≤ 57)

/-- The punctuation set removed by `simplify`
(`[.,;:!?。，、]` in the source): ASCII `. , ; : ! ?`
and CJK `。`(0x3002) `，`(0xff0c) `、`(0x3001). -/
def isPunctN (c : Nat) : Bool :=
  decide (c = 46 ∨ c = 44 ∨ c = 59 ∨ c = 58 ∨ c = 33 ∨ c = 63 ∨
          c = 12290 ∨ c = 65292 ∨ c = 12289)

/-- ASCII uppercase letter. -/
def isUpperN (c : Nat) : Bool := decide (65 ≤ c ∧ c ≤ 90)

/-- Python `str.lower`, at ASCII precision. -/
def toLowerN (c : Nat) : Nat := if 65 ≤ c ∧ c ≤ 90 then c + 32 else c

/-- Whitespace as recognised by Python `str.split()` (ASCII precision):
tab, LF, VT, FF, CR (9–13) and space (32). -/
def isWsN (c : Nat) : Bool := decide ((9 ≤ c ∧ c ≤ 13) ∨ c = 32)

theorem dropWhile_length_le (p : Nat → Bool) (l : List Nat) :
    (l.dropWhile p).length ≤ l.length := by
  induction l with
  | nil => simp
  | cons c rest ih =>
    rw [List.dropWhile_cons]
    by_cases h : p c = true
    · simp only [h, if_true]
      exact Nat.le_succ_of_le ih
    · simp [h]

/-- `re.sub(r'\(\d+\)', '', text)`: delete every occurrence of `(`,
one or more digits, `)`.  A match never spans other characters, and
`re.sub` removes left-to-right non-overlapping matches, which is exactly
this scan: at `(` (code 40), if one or more digits follow and then `)`
(code 41), the whole marker is dropped and scanning resumes after it.
The scan consumes at least one character per step, so `fuel = l.length`
(as supplied by `removeMarkers`) never runs out. -/
def removeMarkersF : Nat → List Nat → List Nat
  | 0, l => l
  | _ + 1, [] => []
  | fuel + 1, c :: rest =>
    if c = 40 ∧ isDigitN (rest.headD 0) then
      match rest.dropWhile isDigitN with
      | 41 :: r2 => removeMarkersF fuel r2
      | _ => c :: removeMarkersF fuel rest
    else c :: removeMarkersF fuel rest

def removeMarkers (l : List Nat) : List Nat := removeMarkersF l.length l

/-- `simplify` (source lines 59–68): remove `(digits)` markers, then all
hyphens `-` (45), then all spaces ` ` (32), then the punctuation set, and
lowercase.  This is the comparison key ("normalize_key" of the spec). -/
def simplify (t : List Nat) : List Nat :=
  ((((removeMarkers t).filter (fun c => c ≠ 45)).filter
      (fun c => c ≠ 32)).filter (fun c => !isPunctN c)).map toLowerN

/-- Characters of a comparison key: never a space, hyphen, punctuation-set
character, or ASCII uppercase letter. -/
theorem simplify_chars (t : List Nat) :
    ∀ c ∈ simplify t, c ≠ 32 ∧ c ≠ 45 ∧ isPunctN c = false ∧ isUpperN c = false := by
  intro c hc
  simp only [simplify, List.mem_map, List.mem_filter] at hc
  obtain ⟨c', ⟨⟨⟨_, h45⟩, h32⟩, hp⟩, rfl⟩ := hc
  simp only [decide_eq_true_eq] at h45 h32
  rw [Bool.not_eq_true'] at hp
  simp only [isPunctN, decide_eq_false_iff_not] at hp
  push_neg at hp
  obtain ⟨p1, p2, p3, p4, p5, p6, p7, p8, p9⟩ := hp
  unfold toLowerN
  by_cases h : 65 ≤ c' ∧ c' ≤ 90
  · rw [if_pos h]
    refine ⟨by omega, by omega, ?_, ?_⟩
    · simp only [isPunctN, decide_eq_false_iff_not]
      omega
    · simp only [isUpperN, decide_eq_false_iff_not]
      omega
  · rw [if_neg h]
    refine ⟨h32, h45, ?_, ?_⟩
    · simp only [isPunctN, decide_eq_false_iff_not]
      omega
    · simp only [isUpperN, decide_eq_false_iff_not]
      omega

theorem filters_fix (k : List Nat)
    (h : ∀ c ∈ k, c ≠ 32 ∧ c ≠ 45 ∧ isPunctN c = false ∧ isUpperN c = false) :
    ((((k.filter (fun c => c ≠ 45)).filter
        (fun c => c ≠ 32)).filter (fun c => !isPunctN c)).map toLowerN) = k := by
  induction k with
  | nil => rfl
  | cons c k' ih =>
    have hc := h c (List.mem_cons_self c k')
    have hrest := ih (fun c hm => h c (List.mem_cons_of_mem _ hm))
    have e45 : (fun c : Nat => decide (c ≠ 45)) c = true := by simp [hc.2.1]
    have e32 : (fun c : Nat => decide (c ≠ 32)) c = true := by simp [hc.1]
    have ep : (fun c : Nat => !isPunctN c) c = true := by simp [hc.2.2.1]
    simp only [List.filter_cons, e45, if_true, e32, ep, List.map_cons]
    rw [hrest]
    have : toLowerN c = c := by
      unfold toLowerN
      rw [if_neg]
      have := hc.2.2.2
      simp only [isUpperN, decide_eq_false_iff_not] at this
      exact this
    rw [this]

/-- If a list is its own `removeMarkers` image and has comparison-key
characters only, `simplify` fixes it. -/
theorem simplify_fix (k : List Nat)
    (hchars : ∀ c ∈ k, c ≠ 32 ∧ c ≠ 45 ∧ isPunctN c = false ∧ isUpperN c = false)
    (hm : removeMarkers k = k) : simplify k = k := by
  unfold simplify
  rw [hm]
  exact filters_fix k hchars

/-- C4 counterexample: `simplify` is not idempotent.  On `"( 1)"` the first
pass removes the interior space, creating the marker `"(1)"`, which a second
pass deletes: `simplify (simplify "( 1)") = "" ≠ "(1)" = simplify "( 1)"`. -/
theorem simplify_not_idempotent_cx :
    simplify (simplify (strN "( 1)")) ≠ simplify (strN "( 1)") := by decide

/-- C4 (amended): `simplify` is idempotent on every text whose comparison
key contains no parenthesized-integer marker, i.e. whenever the marker
removal fixes `simplify t`.  (The deletion of spaces, hyphens and
punctuation can juxtapose `(`, digits, `)` into a fresh marker; that is the
only source of non-idempotence.) -/
theorem simplify_idem_of_no_marker (t : List Nat)
    (h : removeMarkers (simplify t) = simplify t) :
    simplify (simplify t) = simplify t :=
  simplify_fix _ (simplify_chars t) h

theorem simplify_idem_of_no_marker_witness :
    removeMarkers (simplify (strN "Well-Known (2) text.")) =
        simplify (strN "Well-Known (2) text.") ∧
      simplify (simplify (strN "Well-Known (2) text.")) =
        simplify (strN "Well-Known (2) text.") :=
  ⟨by decide, simplify_idem_of_no_marker _ (by decide)⟩

/-- C5 counterexample: the comparison key can contain whitespace.  `simplify`
removes only the space character (32); a tab (9) survives, so the key of
`"a\tb"` contains the whitespace character 9. -/
theorem simplify_whitespace_cx :
    9 ∈ simplify (strN "a\tb") ∧ isWsN 9 = true := by decide

/-- C5 (amended): for every input, the comparison key contains no space
character (32), no hyphen (45), none of the defined punctuation set, and no
ASCII uppercase letter.  (Whitespace other than the space character, e.g.
tab, is not removed.) -/
theorem simplify_no_forbidden_chars (t : List Nat) :
    (simplify t).all
      (fun c => decide (c ≠ 32) && decide (c ≠ 45) && !isPunctN c && !isUpperN c) = true := by
  rw [List.all_eq_true]
  intro c hc
  obtain ⟨h32, h45, hp, hu⟩ := simplify_chars t c hc
  simp [h32, h45, hp, hu]

/-! ## Word splitting and joining

`str.split()` with no argument: split on runs of whitespace, discarding
empty pieces.  Python `' '.join(l)` interleaves a single space. -/

def words : List Nat → List (List Nat)
  | [] => []
  | c :: cs =>
    if isWsN c then words cs
    else
      match cs with
      | [] => [[c]]
      | d :: _ =>
        if isWsN d then [c] :: words cs
        else
          match words cs with
          | [] => [[c]]
          | w :: rest => (c :: w) :: rest

def joinSpace : List (List Nat) → List Nat
  | [] => []
  | [p] => p
  | p :: ps => p ++ 32 :: joinSpace ps

theorem words_cons_ws (c : Nat) (cs : List Nat) (h : isWsN c = true) :
    words (c :: cs) = words cs := by
  simp [words, h]

theorem words_singleton (c : Nat) (h : isWsN c = false) : words [c] = [[c]] := by
  simp [words, h]

theorem words_cons_cons_ws (c d : Nat) (cs : List Nat)
    (hc : isWsN c = false) (hd : isWsN d = true) :
    words (c :: d :: cs) = [c] :: words (d :: cs) := by
  simp [words, hc, hd]

theorem words_cons_cons_nonws (c d : Nat) (cs : List Nat) (w : List Nat)
    (rest : List (List Nat)) (hc : isWsN c = false) (hd : isWsN d = false)
    (h : words (d :: cs) = w :: rest) :
    words (c :: d :: cs) = (c :: w) :: rest := by
  conv_lhs => rw [words]
  simp only [hc, hd, Bool.false_eq_true, if_false, h]

theorem words_ne_nil : ∀ (cs : List Nat) (c : Nat), isWsN c = false →
    words (c :: cs) ≠ [] := by
  intro cs
  induction cs with
  | nil =>
    intro c h
    rw [words_singleton c h]
    simp
  | cons d cs' ih =>
    intro c h
    by_cases hd : isWsN d = true
    · rw [words_cons_cons_ws c d cs' h hd]
      simp
    · rw [Bool.not_eq_true] at hd
      obtain ⟨w, rest, hw⟩ := List.exists_cons_of_ne_nil (ih d hd)
      rw [words_cons_cons_nonws c d cs' w rest h hd hw]
      simp

theorem words_append_space (a b : List Nat) :
    words (a ++ 32 :: b) = words a ++ words b := by
  induction a with
  | nil =>
    rw [List.nil_append, words_cons_ws 32 b (by decide)]
    simp [words]
  | cons c a' ih =>
    by_cases hc : isWsN c = true
    · rw [List.cons_append, words_cons_ws c _ hc, ih, words_cons_ws c a' hc]
    · rw [Bool.not_eq_true] at hc
      cases a' with
      | nil =>
        rw [List.nil_append] at ih
        rw [List.cons_append, List.nil_append,
          words_cons_cons_ws c 32 b hc (by decide), words_singleton c hc, ih]
        simp [words]
      | cons d a'' =>
        simp only [List.cons_append] at ih ⊢
        by_cases hd : isWsN d = true
        · rw [words_cons_cons_ws c d (a'' ++ 32 :: b) hc hd, ih,
            words_cons_cons_ws c d a'' hc hd]
          simp
        · rw [Bool.not_eq_true] at hd
          obtain ⟨w, rest, hw⟩ :=
            List.exists_cons_of_ne_nil (words_ne_nil a'' d hd)
          have hw2 : words (d :: (a'' ++ 32 :: b)) = w :: (rest ++ words b) := by
            rw [ih, hw]
            simp
          rw [words_cons_cons_nonws c d (a'' ++ 32 :: b) w (rest ++ words b) hc hd hw2,
            words_cons_cons_nonws c d a'' w rest hc hd hw]
          simp

theorem words_joinSpace : ∀ l : List (List Nat),
    words (joinSpace l) = (l.map words).flatten := by
  intro l
  induction l with
  | nil => rfl
  | cons p ps ih =>
    cases ps with
    | nil => simp [joinSpace, words]
    | cons q ps' =>
      rw [show joinSpace (p :: q :: ps') = p ++ 32 :: joinSpace (q :: ps') from rfl,
        words_append_space, ih]
      simp

/-- A whitespace-free nonempty list is a single word. -/
theorem words_of_word : ∀ w : List Nat, (∀ c ∈ w, isWsN c = false) → w ≠ [] →
    words w = [w] := by
  intro w
  induction w with
  | nil => intro _ h; exact absurd rfl h
  | cons c w' ih =>
    intro hall _
    have hc : isWsN c = false := hall c (List.mem_cons_self c w')
    cases w' with
    | nil => exact words_singleton c hc
    | cons d t =>
      have hd : isWsN d = false := hall d (by simp)
      have hw' : words (d :: t) = [d :: t] :=
        ih (fun x hx => hall x (List.mem_cons_of_mem _ hx)) (by simp)
      exact words_cons_cons_nonws c d t (d :: t) [] hc hd hw'

/-- Every word produced by `words` is nonempty and whitespace-free. -/
theorem words_mem_word : ∀ (t : List Nat), ∀ w ∈ words t,
    (∀ c ∈ w, isWsN c = false) ∧ w ≠ [] := by
  intro t
  induction t with
  | nil => intro w hw; simp [words] at hw
  | cons c cs ih =>
    intro w hw
    by_cases hc : isWsN c = true
    · rw [words_cons_ws c cs hc] at hw
      exact ih w hw
    · rw [Bool.not_eq_true] at hc
      cases cs with
      | nil =>
        rw [words_singleton c hc] at hw
        simp at hw
        subst hw
        exact ⟨fun x hx => by simp at hx; subst hx; exact hc, by simp⟩
      | cons d cs' =>
        by_cases hd : isWsN d = true
        · rw [words_cons_cons_ws c d cs' hc hd] at hw
          rcases List.mem_cons.1 hw with h | h
          · subst h
            exact ⟨fun x hx => by simp at hx; subst hx; exact hc, by simp⟩
          · exact ih w h
        · rw [Bool.not_eq_true] at hd
          obtain ⟨w', rest, hw'⟩ :=
            List.exists_cons_of_ne_nil (words_ne_nil cs' d hd)
          rw [words_cons_cons_nonws c d cs' w' rest hc hd hw'] at hw
          rcases List.mem_cons.1 hw with h | h
          · subst h
            have hmem : w' ∈ words (d :: cs') := by rw [hw']; simp
            obtain ⟨hall, _⟩ := ih w' hmem
            refine ⟨fun x hx => ?_, by simp⟩
            rcases List.mem_cons.1 hx with h' | h'
            · subst h'; exact hc
            · exact hall x h'
          · have hmem : w ∈ words (d :: cs') := by rw [hw']; simp [h]
            exact ih w hmem

/-! ## Poem Flattener (source lines 24–57)

`flatten_poem_lines(paragraphs, window_size=4)`: a short paragraph
(`len < 50`) opens a run collecting up to 19 further consecutive short
paragraphs (the `j < i + 20` bound); a run of at least `window_size`
members is joined with single spaces into one unit, otherwise only the
first paragraph is emitted and scanning resumes at the next one. -/

/-- The look-ahead loop: up to `n` further consecutive short paragraphs. -/
def shortRun : Nat → List (List Nat) → List (List Nat)
  | _, [] => []
  | 0, _ => []
  | n + 1, q :: rest => if q.length < 50 then q :: shortRun n rest else []

/-- Fuel-indexed body of `flatten_poem_lines`; each step consumes at least
one paragraph, so `fuel = ps.length` (as supplied by `flattenPoem`) never
runs out. -/
def flattenPoemF (w : Nat) : Nat → List (List Nat) → List (List Nat)
  | 0, ps => ps
  | _ + 1, [] => []
  | fuel + 1, p :: rest =>
    if p.length < 50 then
      if w ≤ (p :: shortRun 19 rest).length then
        joinSpace (p :: shortRun 19 rest) ::
          flattenPoemF w fuel (rest.drop (shortRun 19 rest).length)
      else p :: flattenPoemF w fuel rest
    else p :: flattenPoemF w fuel rest

def flattenPoem (w : Nat) (ps : List (List Nat)) : List (List Nat) :=
  flattenPoemF w ps.length ps

theorem shortRun_append : ∀ (n : Nat) (l : List (List Nat)),
    shortRun n l ++ l.drop (shortRun n l).length = l := by
  intro n
  induction n with
  | zero => intro l; cases l <;> simp [shortRun]
  | succ n ih =>
    intro l
    cases l with
    | nil => simp [shortRun]
    | cons q rest =>
      by_cases hq : q.length < 50
      · simp only [shortRun, hq, if_true, List.length_cons, List.cons_append,
          List.drop_succ_cons]
        rw [ih rest]
      · simp [shortRun, hq]

theorem flattenPoemF_words (w : Nat) : ∀ (fuel : Nat) (ps : List (List Nat)),
    ((flattenPoemF w fuel ps).map words).flatten = (ps.map words).flatten := by
  intro fuel
  induction fuel with
  | zero => intro ps; rfl
  | succ fuel ih =>
    intro ps
    cases ps with
    | nil => rfl
    | cons p rest =>
      by_cases hp : p.length < 50
      · by_cases hw : w ≤ (p :: shortRun 19 rest).length
        · simp only [flattenPoemF, hp, if_true, hw, List.map_cons, List.flatten_cons]
          rw [ih, words_joinSpace]
          simp only [List.map_cons, List.flatten_cons, List.append_assoc]
          have : ((shortRun 19 rest).map words).flatten ++
              (((rest.drop (shortRun 19 rest).length).map words)).flatten =
              (rest.map words).flatten := by
            rw [← List.flatten_append, ← List.map_append, shortRun_append]
          rw [this]
        · simp only [flattenPoemF, hp, if_true, hw, if_false, List.map_cons,
            List.flatten_cons]
          rw [ih]
      · simp only [flattenPoemF, hp, if_false, List.map_cons, List.flatten_cons]
        rw [ih]

/-- C6: the Poem Flattener preserves all content in order — concatenating
the whitespace-split words of every emitted unit equals concatenating the
words of all input paragraphs (for any window size, in particular the
default 4). -/
theorem flattenPoem_preserves_words (w : Nat) (ps : List (List Nat)) :
    ((flattenPoem w ps).map words).flatten = (ps.map words).flatten :=
  flattenPoemF_words w ps.length ps

/-! ## difflib.SequenceMatcher

The source creates `difflib.SequenceMatcher(None, a, b, autojunk=False)`
over lists of comparison keys (paragraph level) and of per-word keys
(word level), and consumes `get_opcodes()`.  With no junk and
`autojunk=False` the junk machinery is inert; what remains is embedded
below, element type `List Nat` (a key). -/

/-- A matching block `(i, j, size)`: `a[i:i+k] == b[j:j+k]`.  Also the
return type of `find_longest_match`. -/
structure Block where
  i : Nat
  j : Nat
  k : Nat
deriving DecidableEq

/-- `self.b2j`: for each element value, the ascending list of its indices
in `b`. -/
def b2j (b : List (List Nat)) (x : List Nat) : List Nat :=
  (List.range b.length).filter (fun j => decide (b.getD j [] = x))

/-- Inner loop of `find_longest_match` for one row `i`: walk the matching
`j`s (ascending, already restricted to `blo ≤ j < bhi`, which is what the
`continue`/`break` pair does on an ascending list), extending runs from the
previous row's `j2len` into `newj2len` (`acc`) and tracking the best.
`j2len.get(j-1, 0)` reads 0 at `j = 0` (Python key `-1` is absent). -/
def innerFLM (i : Nat) (j2len : Nat → Nat) :
    List Nat → (Nat → Nat) → Block → ((Nat → Nat) × Block)
  | [], acc, best => (acc, best)
  | j :: js, acc, best =>
    let k := (if j = 0 then 0 else j2len (j - 1)) + 1
    innerFLM i j2len js (fun j' => if j' = j then k else acc j')
      (if best.k < k then ⟨i + 1 - k, j + 1 - k, k⟩ else best)

/-- Outer loop of `find_longest_match` over rows `alo ≤ i < ahi`. -/
def outerFLM (a b : List (List Nat)) (blo bhi : Nat) :
    List Nat → (Nat → Nat) → Block → Block
  | [], _, best => best
  | i :: is, j2len, best =>
    let js := (b2j b (a.getD i [])).filter
      (fun j => decide (blo ≤ j) && decide (j < bhi))
    let r := innerFLM i j2len js (fun _ => 0) best
    outerFLM a b blo bhi is r.1 r.2

/-- First while loop of `find_longest_match` (backward extension over
non-junk elements; with no junk its guard is just the equality test).
`best.i` decreases while `> alo`, so the supplied fuel `best.i` suffices. -/
def extBack (a b : List (List Nat)) (alo blo : Nat) : Nat → Block → Block
  | 0, best => best
  | fuel + 1, best =>
    if alo < best.i ∧ blo < best.j ∧
        a.getD (best.i - 1) [] = b.getD (best.j - 1) [] then
      extBack a b alo blo fuel ⟨best.i - 1, best.j - 1, best.k + 1⟩
    else best

/-- Second while loop (forward extension); `best.i + best.k` increases
while `< ahi`, so fuel `ahi` suffices.  The remaining two while loops of
the Python source iterate only over junk elements and never run here. -/
def extFwd (a b : List (List Nat)) (ahi bhi : Nat) : Nat → Block → Block
  | 0, best => best
  | fuel + 1, best =>
    if best.i + best.k < ahi ∧ best.j + best.k < bhi ∧
        a.getD (best.i + best.k) [] = b.getD (best.j + best.k) [] then
      extFwd a b ahi bhi fuel ⟨best.i, best.j, best.k + 1⟩
    else best

/-- `find_longest_match(alo, ahi, blo, bhi)`. -/
def findLongestMatch (a b : List (List Nat)) (alo ahi blo bhi : Nat) : Block :=
  let best0 := outerFLM a b blo bhi (List.range' alo (ahi - alo))
    (fun _ => 0) ⟨alo, blo, 0⟩
  extFwd a b ahi bhi ahi (extBack a b alo blo best0.i best0)

/-- Recursive core of `get_matching_blocks`.  Python explores the
subranges with a LIFO queue and finally sorts the collected blocks by
position; as the blocks of the two subranges lie strictly left/right of
the found match, this in-order recursion produces exactly that sorted
list.  Each recursion strictly shrinks `(ahi-alo)+(bhi-blo)`, so fuel
`a.length + b.length + 1` (as supplied by `matchingBlocks`) suffices. -/
def mbAux (a b : List (List Nat)) : Nat → Nat → Nat → Nat → Nat → List Block
  | 0, _, _, _, _ => []
  | fuel + 1, alo, ahi, blo, bhi =>
    let m := findLongestMatch a b alo ahi blo bhi
    if 0 < m.k then
      (if alo < m.i ∧ blo < m.j then mbAux a b fuel alo m.i blo m.j else []) ++
        m :: (if m.i + m.k < ahi ∧ m.j + m.k < bhi then
                mbAux a b fuel (m.i + m.k) ahi (m.j + m.k) bhi
              else [])
    else []

/-- The adjacency-merging pass of `get_matching_blocks` (`non_adjacent`):
a block starting exactly where the current one ends is absorbed into it;
a pending block with nonzero size is flushed before moving on. -/
def nonAdjacentGo (i1 j1 k1 : Nat) : List Block → List Block
  | [] => if k1 ≠ 0 then [⟨i1, j1, k1⟩] else []
  | m :: rest =>
    if i1 + k1 = m.i ∧ j1 + k1 = m.j then nonAdjacentGo i1 j1 (k1 + m.k) rest
    else (if k1 ≠ 0 then [⟨i1, j1, k1⟩] else []) ++ nonAdjacentGo m.i m.j m.k rest

/-- `get_matching_blocks()`: merged blocks plus the `(la, lb, 0)`
terminator. -/
def matchingBlocks (a b : List (List Nat)) : List Block :=
  nonAdjacentGo 0 0 0 (mbAux a b (a.length + b.length + 1) 0 a.length 0 b.length) ++
    [⟨a.length, b.length, 0⟩]

inductive Tag
  | replace
  | delete
  | insert
  | equal
deriving DecidableEq

/-- One opcode `(tag, i1, i2, j1, j2)`. -/
structure Op where
  tag : Tag
  i1 : Nat
  i2 : Nat
  j1 : Nat
  j2 : Nat
deriving DecidableEq

/-- The opcode-emitting loop of `get_opcodes()`: for each matching block,
first the gap between the running cursor and the block (tagged
replace/delete/insert according to which sides are nonempty), then the
equal block itself when its size is nonzero. -/
def opcodesGo : Nat → Nat → List Block → List Op
  | _, _, [] => []
  | i, j, m :: rest =>
    (if i < m.i ∧ j < m.j then [⟨.replace, i, m.i, j, m.j⟩]
     else if i < m.i then [⟨.delete, i, m.i, j, m.j⟩]
     else if j < m.j then [⟨.insert, i, m.i, j, m.j⟩]
     else []) ++
      (if 0 < m.k then [⟨.equal, m.i, m.i + m.k, m.j, m.j + m.k⟩] else []) ++
      opcodesGo (m.i + m.k) (m.j + m.k) rest

/-- `get_opcodes()`. -/
def getOpcodes (a b : List (List Nat)) : List Op :=
  opcodesGo 0 0 (matchingBlocks a b)

/-! ## Global sync loop (source lines 139–161)

Runs the matcher over the two key sequences, keeps every non-equal opcode
whose concatenated keys genuinely differ, and records with it the sync
point — the end positions of the last preceding equal run (0,0 before any
equal run).  Only equal runs update the sync point. -/

/-- Python slice `l[s:e]`. -/
def sliceL {α : Type} (l : List α) (s e : Nat) : List α := (l.drop s).take (e - s)

/-- A kept difference unit `(tag, i1, i2, j1, j2, last_sync_a, last_sync_b)`. -/
structure RealDiff where
  tag : Tag
  i1 : Nat
  i2 : Nat
  j1 : Nat
  j2 : Nat
  syncA : Nat
  syncB : Nat
deriving DecidableEq

/-- The `for tag, i1, i2, j1, j2 in global_matcher.get_opcodes()` loop,
carrying `last_sync_a`/`last_sync_b`.  The key test uses
`simplify("".join(text_x[x1:x2]))` — `simplify` of the concatenation. -/
def rdGo (tA tB : List (List Nat)) : List Op → Nat → Nat → List RealDiff
  | [], _, _ => []
  | op :: rest, la, lb =>
    if op.tag = Tag.equal then rdGo tA tB rest op.i2 op.j2
    else
      if simplify (sliceL tA op.i1 op.i2).flatten =
          simplify (sliceL tB op.j1 op.j2).flatten then
        rdGo tA tB rest la lb
      else ⟨op.tag, op.i1, op.i2, op.j1, op.j2, la, lb⟩ :: rdGo tA tB rest la lb

/-- `real_diffs` for documents `text_a`, `text_b` (post-anchor slices):
the matcher runs on the per-paragraph comparison keys. -/
def realDiffs (tA tB : List (List Nat)) : List RealDiff :=
  rdGo tA tB (getOpcodes (tA.map simplify) (tB.map simplify)) 0 0

/-- Modelled from the spec: "the paragraph offsets marking the end of the
last preceding equal run"; `init` before any equal run. -/
def lastEqualEnd (init : Nat × Nat) (ops : List Op) : Nat × Nat :=
  ops.foldl (fun acc op => if op.tag = Tag.equal then (op.i2, op.j2) else acc) init

/-- Modelled from the spec: the difference units are exactly the non-equal
opcodes with differing concatenated keys, each carrying the end position of
the last preceding equal run as its sync point. -/
def specUnitsFrom (tA tB : List (List Nat)) (init : Nat × Nat)
    (ops : List Op) : List RealDiff :=
  (List.range ops.length).filterMap fun p =>
    match ops[p]? with
    | none => none
    | some op =>
      if op.tag = Tag.equal then none
      else if simplify (sliceL tA op.i1 op.i2).flatten =
          simplify (sliceL tB op.j1 op.j2).flatten then none
      else some ⟨op.tag, op.i1, op.i2, op.j1, op.j2,
        (lastEqualEnd init (ops.take p)).1, (lastEqualEnd init (ops.take p)).2⟩

theorem specUnitsFrom_cons (tA tB : List (List Nat)) (init : Nat × Nat)
    (op : Op) (rest : List Op) :
    specUnitsFrom tA tB init (op :: rest) =
      (if op.tag = Tag.equal then []
       else if simplify (sliceL tA op.i1 op.i2).flatten =
           simplify (sliceL tB op.j1 op.j2).flatten then []
       else [⟨op.tag, op.i1, op.i2, op.j1, op.j2, init.1, init.2⟩]) ++
      specUnitsFrom tA tB
        (if op.tag = Tag.equal then (op.i2, op.j2) else init) rest := by
  unfold specUnitsFrom
  rw [List.length_cons, List.range_succ_eq_map, List.filterMap_cons,
    List.filterMap_map]
  have hfun : ∀ p : Nat,
      (match (op :: rest)[p + 1]? with
        | none => none
        | some o =>
          if o.tag = Tag.equal then none
          else if simplify (sliceL tA o.i1 o.i2).flatten =
              simplify (sliceL tB o.j1 o.j2).flatten then none
          else some (⟨o.tag, o.i1, o.i2, o.j1, o.j2,
            (lastEqualEnd init ((op :: rest).take (p + 1))).1,
            (lastEqualEnd init ((op :: rest).take (p + 1))).2⟩ : RealDiff)) =
      (match rest[p]? with
        | none => none
        | some o =>
          if o.tag = Tag.equal then none
          else if simplify (sliceL tA o.i1 o.i2).flatten =
              simplify (sliceL tB o.j1 o.j2).flatten then none
          else some (⟨o.tag, o.i1, o.i2, o.j1, o.j2,
            (lastEqualEnd (if op.tag = Tag.equal then (op.i2, op.j2) else init)
              (rest.take p)).1,
            (lastEqualEnd (if op.tag = Tag.equal then (op.i2, op.j2) else init)
              (rest.take p)).2⟩ : RealDiff)) := by
    intro p
    have h1 : (op :: rest)[p + 1]? = rest[p]? := by simp
    have h2 : lastEqualEnd init ((op :: rest).take (p + 1)) =
        lastEqualEnd (if op.tag = Tag.equal then (op.i2, op.j2) else init)
          (rest.take p) := by
      rw [List.take_succ_cons]
      rfl
    rw [h1, h2]
  have hcomp : ((fun p : Nat =>
      (match (op :: rest)[p]? with
        | none => none
        | some o =>
          if o.tag = Tag.equal then none
          else if simplify (sliceL tA o.i1 o.i2).flatten =
              simplify (sliceL tB o.j1 o.j2).flatten then none
          else some (⟨o.tag, o.i1, o.i2, o.j1, o.j2,
            (lastEqualEnd init ((op :: rest).take p)).1,
            (lastEqualEnd init ((op :: rest).take p)).2⟩ : RealDiff))) ∘ Nat.succ) =
      fun p : Nat =>
      (match rest[p]? with
        | none => none
        | some o =>
          if o.tag = Tag.equal then none
          else if simplify (sliceL tA o.i1 o.i2).flatten =
              simplify (sliceL tB o.j1 o.j2).flatten then none
          else some (⟨o.tag, o.i1, o.i2, o.j1, o.j2,
            (lastEqualEnd (if op.tag = Tag.equal then (op.i2, op.j2) else init)
              (rest.take p)).1,
            (lastEqualEnd (if op.tag = Tag.equal then (op.i2, op.j2) else init)
              (rest.take p)).2⟩ : RealDiff)) := by
    funext p
    exact hfun p
  rw [hcomp]
  by_cases he : op.tag = Tag.equal
  · simp [he, lastEqualEnd]
  · by_cases hk : simplify (sliceL tA op.i1 op.i2).flatten =
        simplify (sliceL tB op.j1 op.j2).flatten
    · simp [he, hk, lastEqualEnd]
    · simp [he, hk, lastEqualEnd]

theorem rdGo_eq_specUnitsFrom (tA tB : List (List Nat)) :
    ∀ (ops : List Op) (la lb : Nat),
      rdGo tA tB ops la lb = specUnitsFrom tA tB (la, lb) ops := by
  intro ops
  induction ops with
  | nil => intro la lb; rfl
  | cons op rest ih =>
    intro la lb
    rw [specUnitsFrom_cons]
    by_cases he : op.tag = Tag.equal
    · simp only [rdGo, he, if_true, ih]
      simp [he]
    · by_cases hk : simplify (sliceL tA op.i1 op.i2).flatten =
          simplify (sliceL tB op.j1 op.j2).flatten
      · simp only [rdGo, he, if_false, hk, if_true, ih]
        simp [he, hk]
      · simp only [rdGo, he, if_false, hk, ih]
        simp [he, hk]

theorem rdGo_all_keys_differ (tA tB : List (List Nat)) :
    ∀ (ops : List Op) (la lb : Nat),
      (rdGo tA tB ops la lb).all (fun u =>
        !decide (simplify (sliceL tA u.i1 u.i2).flatten =
          simplify (sliceL tB u.j1 u.j2).flatten)) = true := by
  intro ops
  induction ops with
  | nil => intro la lb; rfl
  | cons op rest ih =>
    intro la lb
    by_cases he : op.tag = Tag.equal
    · simp only [rdGo, he, if_true]
      exact ih op.i2 op.j2
    · by_cases hk : simplify (sliceL tA op.i1 op.i2).flatten =
          simplify (sliceL tB op.j1 op.j2).flatten
      · simp only [rdGo, he, if_false, hk, if_true]
        exact ih la lb
      · simp only [rdGo, he, if_false, hk, List.all_cons]
        rw [ih la lb]
        simp [hk]

/-- C3: every difference unit the Global Aligner emits is a non-equal
opcode whose concatenated comparison keys differ (key-equal runs are
excluded), and the sync offsets recorded with it are the end positions of
the last preceding equal run, `(0, 0)` when none precedes: the loop output
equals the spec-side description `specUnitsFrom`, and every emitted unit
passes the key-difference test. -/
theorem global_aligner_units (tA tB : List (List Nat)) :
    realDiffs tA tB =
      specUnitsFrom tA tB (0, 0)
        (getOpcodes (tA.map simplify) (tB.map simplify)) ∧
    (realDiffs tA tB).all (fun u =>
      !decide (simplify (sliceL tA u.i1 u.i2).flatten =
        simplify (sliceL tB u.j1 u.j2).flatten)) = true :=
  ⟨rdGo_eq_specUnitsFrom tA tB _ 0 0, rdGo_all_keys_differ tA tB _ 0 0⟩

/-! ## Word-Level Highlighter (source lines 70–97)

`highlight_real_changes(text_a, text_b)`: split into words, align the
per-word comparison keys, then display each opcode block as plain text
when the block is equal or its full keys match, else as a change-annotated
span on each nonempty side.  A span is modelled as
`(changed : Bool, text)`; the HTML wrapper of the source carries exactly
this one bit. -/

/-- The `for tag, i1, i2, j1, j2 in matcher.get_opcodes()` loop of
`highlight_real_changes`, building `display_a`/`display_b`. -/
def hlGo (wa wb : List (List Nat)) :
    List Op → (List (Bool × List Nat) × List (Bool × List Nat))
  | [] => ([], [])
  | op :: rest =>
    let blockA := joinSpace (sliceL wa op.i1 op.i2)
    let blockB := joinSpace (sliceL wb op.j1 op.j2)
    let r := hlGo wa wb rest
    if op.tag = Tag.equal ∨ simplify blockA = simplify blockB then
      ((false, blockA) :: r.1, (false, blockB) :: r.2)
    else
      ((if blockA ≠ [] then [(true, blockA)] else []) ++ r.1,
       (if blockB ≠ [] then [(true, blockB)] else []) ++ r.2)

/-- `highlight_real_changes`: the matcher runs on the per-word keys of the
two texts. -/
def highlightSpans (ta tb : List Nat) :
    List (Bool × List Nat) × List (Bool × List Nat) :=
  hlGo (words ta) (words tb)
    (getOpcodes ((words ta).map simplify) ((words tb).map simplify))

theorem hlGo_unchanged (wa wb : List (List Nat)) : ∀ ops : List Op,
    (∀ op ∈ ops, op.tag ≠ Tag.equal →
      simplify (joinSpace (sliceL wa op.i1 op.i2)) =
        simplify (joinSpace (sliceL wb op.j1 op.j2))) →
    ((hlGo wa wb ops).1.all (fun s => !s.1)) = true ∧
    ((hlGo wa wb ops).2.all (fun s => !s.1)) = true := by
  intro ops
  induction ops with
  | nil => intro _; exact ⟨rfl, rfl⟩
  | cons op rest ih =>
    intro h
    have hrest := ih (fun o ho => h o (List.mem_cons_of_mem _ ho))
    by_cases hcond : op.tag = Tag.equal ∨
        simplify (joinSpace (sliceL wa op.i1 op.i2)) =
          simplify (joinSpace (sliceL wb op.j1 op.j2))
    · simp only [hlGo, hcond, if_true, List.all_cons]
      exact ⟨by simp [hrest.1], by simp [hrest.2]⟩
    · exfalso
      push_neg at hcond
      exact hcond.2 (h op (List.mem_cons_self op rest) hcond.1)

/-- C7 counterexample: equality of the two texts' whole comparison keys
does not prevent changed spans.  `"z zz"` and `"zz z"` have the same key
`"zzz"`, but the word-level alignment produces an insert and a delete
block whose per-block keys differ, so changed spans are emitted. -/
theorem highlight_changed_despite_equal_keys_cx :
    simplify (strN "z zz") = simplify (strN "zz z") ∧
      ((highlightSpans (strN "z zz") (strN "zz z")).1.any
        (fun s => s.1)) = true := by decide

/-- C7 (amended): the highlighter emits zero changed spans whenever every
non-equal opcode block of the word-level alignment has matching full-block
comparison keys (as is the case for `"well-known"` vs `"well known"`);
equality of the whole texts' keys alone does not guarantee this. -/
theorem highlight_unchanged_of_block_keys (ta tb : List Nat)
    (h : ∀ op ∈ getOpcodes ((words ta).map simplify) ((words tb).map simplify),
      op.tag ≠ Tag.equal →
        simplify (joinSpace (sliceL (words ta) op.i1 op.i2)) =
          simplify (joinSpace (sliceL (words tb) op.j1 op.j2))) :
    ((highlightSpans ta tb).1.all (fun s => !s.1)) = true ∧
    ((highlightSpans ta tb).2.all (fun s => !s.1)) = true :=
  hlGo_unchanged (words ta) (words tb) _ h

theorem highlight_unchanged_of_block_keys_witness :
    (∀ op ∈ getOpcodes ((words (strN "well-known")).map simplify)
        ((words (strN "well known")).map simplify),
      op.tag ≠ Tag.equal →
        simplify (joinSpace (sliceL (words (strN "well-known")) op.i1 op.i2)) =
          simplify (joinSpace (sliceL (words (strN "well known")) op.j1 op.j2))) ∧
    ((highlightSpans (strN "well-known") (strN "well known")).1.all
      (fun s => !s.1)) = true :=
  ⟨by decide, (highlight_unchanged_of_block_keys _ _ (by decide)).1⟩

/-! ## Top-level outcome (source lines 139–164)

After the global sync loop: `if not real_diffs: st.success(...)` — the
"fully synchronized" success state; otherwise the difference units are
shown with navigation.  There is no separate empty-input branch anywhere
in the program. -/

inductive Outcome
  | success
  | diffs (n : Nat)
deriving DecidableEq

def compareOutcome (tA tB : List (List Nat)) : Outcome :=
  if realDiffs tA tB = [] then Outcome.success
  else Outcome.diffs (realDiffs tA tB).length

/-- C8 counterexample: a pair of empty documents is reported with exactly
the same "fully synchronized" success state as a pair of identical
non-empty documents — the code has no distinct EmptyInput report. -/
theorem empty_input_not_distinct_cx :
    compareOutcome [] [] = compareOutcome [strN "a"] [strN "a"] ∧
      compareOutcome [] [] = Outcome.success := by decide

theorem matchingBlocks_nil_a (b : List (List Nat)) :
    matchingBlocks [] b = [⟨0, b.length, 0⟩] := rfl

theorem getOpcodes_nil_a (x : List Nat) (rest : List (List Nat)) :
    getOpcodes [] (x :: rest) = [⟨Tag.insert, 0, 0, 0, rest.length + 1⟩] := by
  unfold getOpcodes
  rw [matchingBlocks_nil_a]
  simp [opcodesGo]

theorem outerFLM_nil_b (a : List (List Nat)) (blo bhi : Nat) :
    ∀ (rows : List Nat) (j2len : Nat → Nat) (best : Block),
      outerFLM a [] blo bhi rows j2len best = best := by
  intro rows
  induction rows with
  | nil => intro _ _; rfl
  | cons i is ih => intro j2len best; exact ih (fun _ => 0) best

theorem extBack_no_step (a b : List (List Nat)) (alo blo fuel : Nat)
    (best : Block)
    (h : ¬(alo < best.i ∧ blo < best.j ∧
        a.getD (best.i - 1) [] = b.getD (best.j - 1) [])) :
    extBack a b alo blo fuel best = best := by
  cases fuel with
  | zero => rfl
  | succ f =>
    show (if alo < best.i ∧ blo < best.j ∧
        a.getD (best.i - 1) [] = b.getD (best.j - 1) [] then
      extBack a b alo blo f ⟨best.i - 1, best.j - 1, best.k + 1⟩ else best) = best
    rw [if_neg h]

theorem extFwd_no_step (a b : List (List Nat)) (ahi bhi fuel : Nat)
    (best : Block)
    (h : ¬(best.i + best.k < ahi ∧ best.j + best.k < bhi ∧
        a.getD (best.i + best.k) [] = b.getD (best.j + best.k) [])) :
    extFwd a b ahi bhi fuel best = best := by
  cases fuel with
  | zero => rfl
  | succ f =>
    show (if best.i + best.k < ahi ∧ best.j + best.k < bhi ∧
        a.getD (best.i + best.k) [] = b.getD (best.j + best.k) [] then
      extFwd a b ahi bhi f ⟨best.i, best.j, best.k + 1⟩ else best) = best
    rw [if_neg h]

theorem flm_nil_b (a : List (List Nat)) (alo ahi blo : Nat) :
    findLongestMatch a [] alo ahi blo 0 = ⟨alo, blo, 0⟩ := by
  unfold findLongestMatch
  rw [outerFLM_nil_b]
  show extFwd a [] ahi 0 ahi (extBack a [] alo blo alo ⟨alo, blo, 0⟩) =
    ⟨alo, blo, 0⟩
  rw [extBack_no_step _ _ _ _ _ _ (fun hc => absurd hc.1 (Nat.lt_irrefl alo))]
  exact extFwd_no_step _ _ _ _ _ _ (fun hc => Nat.not_lt_zero _ hc.2.1)

theorem matchingBlocks_nil_b (a : List (List Nat)) :
    matchingBlocks a [] = [⟨a.length, 0, 0⟩] := by
  show nonAdjacentGo 0 0 0 (mbAux a [] (a.length + 0 + 1) 0 a.length 0 0) ++
      [⟨a.length, 0, 0⟩] = [⟨a.length, 0, 0⟩]
  have hz : mbAux a [] (a.length + 0 + 1) 0 a.length 0 0 = [] := by
    simp [mbAux, flm_nil_b]
  rw [hz]
  rfl

theorem getOpcodes_nil_b (x : List Nat) (rest : List (List Nat)) :
    getOpcodes (x :: rest) [] = [⟨Tag.delete, 0, rest.length + 1, 0, 0⟩] := by
  unfold getOpcodes
  rw [matchingBlocks_nil_b]
  simp [opcodesGo]

theorem sliceL_zero_length {α : Type} (l : List α) : sliceL l 0 l.length = l := by
  simp [sliceL]

/-- C8 (amended): zero-paragraph input is not specially handled.  Two
empty documents are reported with the same "fully synchronized" success
state as the NoDifferences case, and an empty document against a document
with non-empty concatenated key yields one ordinary difference unit; no
distinct "no content to compare" report exists. -/
theorem empty_input_outcome :
    compareOutcome [] [] = Outcome.success ∧
    (∀ tB : List (List Nat), simplify tB.flatten ≠ [] →
      compareOutcome [] tB = Outcome.diffs 1) ∧
    (∀ tA : List (List Nat), simplify tA.flatten ≠ [] →
      compareOutcome tA [] = Outcome.diffs 1) := by
  refine ⟨by decide, ?_, ?_⟩
  · intro tB h
    cases tB with
    | nil => exact absurd rfl h
    | cons x rest =>
      have hops : getOpcodes ((([] : List (List Nat))).map simplify)
          ((x :: rest).map simplify) =
          [⟨Tag.insert, 0, 0, 0, rest.length + 1⟩] := by
        rw [List.map_nil, List.map_cons, getOpcodes_nil_a]
        simp
      have hsl : sliceL (x :: rest) 0 (rest.length + 1) = x :: rest :=
        sliceL_zero_length (x :: rest)
      have hrd : realDiffs [] (x :: rest) =
          [⟨Tag.insert, 0, 0, 0, rest.length + 1, 0, 0⟩] := by
        unfold realDiffs
        rw [hops]
        simp only [rdGo]
        rw [if_neg (by simp : ¬ (Tag.insert = Tag.equal))]
        rw [if_neg ?_]
        rw [hsl]
        intro he
        exact h (by simpa [sliceL] using he.symm)
      simp [compareOutcome, hrd]
  · intro tA h
    cases tA with
    | nil => exact absurd rfl h
    | cons x rest =>
      have hops : getOpcodes ((x :: rest).map simplify)
          ((([] : List (List Nat))).map simplify) =
          [⟨Tag.delete, 0, rest.length + 1, 0, 0⟩] := by
        rw [List.map_nil, List.map_cons, getOpcodes_nil_b]
        simp
      have hsl : sliceL (x :: rest) 0 (rest.length + 1) = x :: rest :=
        sliceL_zero_length (x :: rest)
      have hrd : realDiffs (x :: rest) [] =
          [⟨Tag.delete, 0, rest.length + 1, 0, 0, 0, 0⟩] := by
        unfold realDiffs
        rw [hops]
        simp only [rdGo]
        rw [if_neg (by simp : ¬ (Tag.delete = Tag.equal))]
        rw [if_neg ?_]
        rw [hsl]
        intro he
        exact h (by simpa [sliceL] using he)
      simp [compareOutcome, hrd]

theorem empty_input_outcome_witness :
    simplify ([strN "a"] : List (List Nat)).flatten ≠ [] ∧
      compareOutcome [] [strN "a"] = Outcome.diffs 1 ∧
      compareOutcome [strN "a"] [] = Outcome.diffs 1 :=
  ⟨by decide, empty_input_outcome.2.1 _ (by decide),
    empty_input_outcome.2.2 _ (by decide)⟩

/-! ## Resync Classifier (source lines 184–287)

For the focused difference unit with paragraph ranges `diff_paras_a`,
`diff_paras_b`:

* original side non-empty, revised side empty → search `text_b` from the
  recorded sync point `last_sync_b` over a window of at most 200
  paragraphs for the key of each original paragraph, in unit order, inner
  loop over window positions; the first hit splits the unit
  (lines 185–263).  Lines 215–231 are a verbatim duplicate of the search
  loop of lines 195–214; since its per-offset inner searches can only
  rediscover the same first hit before the `resync_idx_b is not None`
  break fires, the duplicate leaves the result of the first loop
  unchanged, and the search is modelled once.
* original side empty, revised side non-empty → the whole unit is
  rendered as an added section; no search runs (lines 273–279).
* both non-empty → word-level comparison (lines 281–287). -/

/-- `search_end = min(last_sync_b + 200, len(text_b))`. -/
def windowEnd (tB : List (List Nat)) (s : Nat) : Nat := min (s + 200) tB.length

/-- The inner `for idx_b in range(s, s + n)` loop: first index whose
paragraph key equals `key`. -/
def searchGo (tB : List (List Nat)) (key : List Nat) : Nat → Nat → Option Nat
  | _, 0 => none
  | s, n + 1 =>
    if simplify (tB.getD s []) = key then some s
    else searchGo tB key (s + 1) n

/-- Window search for one original paragraph's key, from the sync point. -/
def searchWindow (tB : List (List Nat)) (s : Nat) (key : List Nat) : Option Nat :=
  searchGo tB key s (windowEnd tB s - s)

/-- The outer `for offset_a, para_a in enumerate(diff_paras_a)` loop:
first (offset, window index) pair that matches. -/
def rsGo (tB : List (List Nat)) (s : Nat) :
    Nat → List (List Nat) → Option (Nat × Nat)
  | _, [] => none
  | o, p :: rest =>
    match searchWindow tB s (simplify p) with
    | some i => some (o, i)
    | none => rsGo tB s (o + 1) rest

/-- `(resync_offset_a, resync_idx_b)` after the search loops. -/
def resyncSearch (dA tB : List (List Nat)) (s : Nat) : Option (Nat × Nat) :=
  rsGo tB s 0 dA

/-- The split of lines 233–263: `truly_deleted = diff_paras_a[:o]`,
`common_in_a = diff_paras_a[o:]`,
`common_in_b = text_b[i : i + len(common_in_a)]`; `none` when no resync
was found (lines 265–271). -/
def classifyDeletion (dA tB : List (List Nat)) (s : Nat) :
    Option (List (List Nat) × List (List Nat) × List (List Nat)) :=
  match resyncSearch dA tB s with
  | some (o, i) => some (dA.take o, dA.drop o, sliceL tB i (i + (dA.drop o).length))
  | none => none

inductive UnitClass
  | split (trulyDeleted commonA commonB : List (List Nat))
  | pureDelete (paras : List (List Nat))
  | pureInsert (paras : List (List Nat))
  | wordLevel (a b : List (List Nat))
deriving DecidableEq

/-- The branch dispatch of lines 185/273/281 on the focused unit.  The
insertion branch (lines 273–279) renders the whole revised-side range as
an added section; it reads neither the original document nor a sync
point. -/
def classifyUnit (dA dB tB : List (List Nat)) (sB : Nat) : UnitClass :=
  if 0 < dA.length ∧ dB.length = 0 then
    match classifyDeletion dA tB sB with
    | some (d, ca, cb) => UnitClass.split d ca cb
    | none => UnitClass.pureDelete dA
  else if dA.length = 0 ∧ 0 < dB.length then UnitClass.pureInsert dB
  else UnitClass.wordLevel dA dB

theorem searchGo_some (tB : List (List Nat)) (key : List Nat) :
    ∀ (n s i : Nat), searchGo tB key s n = some i →
      s ≤ i ∧ i < s + n ∧ simplify (tB.getD i []) = key ∧
      ∀ i', s ≤ i' → i' < i → simplify (tB.getD i' []) ≠ key := by
  intro n
  induction n with
  | zero => intro s i h; exact absurd h (by simp [searchGo])
  | succ n ih =>
    intro s i h
    by_cases hm : simplify (tB.getD s []) = key
    · rw [searchGo, if_pos hm] at h
      obtain rfl : s = i := by injection h
      exact ⟨Nat.le_refl s, by omega, hm, fun i' h1 h2 => by omega⟩
    · rw [searchGo, if_neg hm] at h
      obtain ⟨h1, h2, h3, h4⟩ := ih (s + 1) i h
      refine ⟨by omega, by omega, h3, fun i' hi1 hi2 => ?_⟩
      by_cases he : i' = s
      · subst he; exact hm
      · exact h4 i' (by omega) hi2

theorem searchGo_none (tB : List (List Nat)) (key : List Nat) :
    ∀ (n s : Nat), searchGo tB key s n = none →
      ∀ i', s ≤ i' → i' < s + n → simplify (tB.getD i' []) ≠ key := by
  intro n
  induction n with
  | zero => intro s _ i' h1 h2; omega
  | succ n ih =>
    intro s h i' h1 h2
    by_cases hm : simplify (tB.getD s []) = key
    · rw [searchGo, if_pos hm] at h
      exact absurd h (by simp)
    · rw [searchGo, if_neg hm] at h
      by_cases he : i' = s
      · subst he; exact hm
      · exact ih (s + 1) h i' (by omega) (by omega)

theorem rsGo_spec (tB : List (List Nat)) (s : Nat) :
    ∀ (dA : List (List Nat)) (o0 : Nat),
      (∀ o i, rsGo tB s o0 dA = some (o, i) →
        ∃ o', o = o0 + o' ∧ o' < dA.length ∧
          searchWindow tB s (simplify (dA.getD o' [])) = some i ∧
          ∀ o'' < o', searchWindow tB s (simplify (dA.getD o'' [])) = none) ∧
      (rsGo tB s o0 dA = none →
        ∀ o' < dA.length, searchWindow tB s (simplify (dA.getD o' [])) = none) := by
  intro dA
  induction dA with
  | nil =>
    intro o0
    exact ⟨fun o i h => absurd h (by simp [rsGo]), fun _ o' h => by simp at h⟩
  | cons p rest ih =>
    intro o0
    cases hs : searchWindow tB s (simplify p) with
    | some j =>
      constructor
      · intro o i h
        rw [rsGo, hs] at h
        obtain ⟨rfl, rfl⟩ : o0 = o ∧ j = i := by
          constructor <;> [skip; skip] <;> injection h with h' <;> cases h' <;> rfl
        exact ⟨0, by omega, by simp, by simpa using hs, fun o'' h'' => by omega⟩
      · intro h
        rw [rsGo, hs] at h
        exact absurd h (by simp)
    | none =>
      constructor
      · intro o i h
        rw [rsGo, hs] at h
        obtain ⟨o'', rfl, h2, h3, h4⟩ := ((ih (o0 + 1)).1 o i h)
        refine ⟨o'' + 1, by omega, by simp; omega, by simpa using h3, ?_⟩
        intro o3 h5
        cases o3 with
        | zero => simpa using hs
        | succ t => simpa using h4 t (by omega)
      · intro h o' h'
        rw [rsGo, hs] at h
        cases o' with
        | zero => simpa using hs
        | succ t => simpa using (ih (o0 + 1)).2 h t (by simpa using Nat.lt_of_succ_lt_succ h')

/-- C1: for a unit with non-empty original side and empty revised side,
the classifier searches `text_b` from the recorded sync point over a
window of at most 200 paragraphs for each original paragraph's key in
unit order, earliest match winning (first in unit order, then lowest
window index); a hit at `(o, i)` splits the unit into
`diff_paras_a[:o]` truly deleted, `diff_paras_a[o:]` common, and
`text_b[i : i + (len(diff_paras_a) - o)]` as the revised-side
counterparts; no hit classifies the entire unit as a true deletion. -/
theorem resync_deletion_classifier (dA tB : List (List Nat)) (s : Nat)
    (hne : dA ≠ []) :
    (∀ o i, resyncSearch dA tB s = some (o, i) →
      o < dA.length ∧
      s ≤ i ∧ i < windowEnd tB s ∧
      simplify (tB.getD i []) = simplify (dA.getD o []) ∧
      (∀ i', s ≤ i' → i' < i →
        simplify (tB.getD i' []) ≠ simplify (dA.getD o [])) ∧
      (∀ o' < o, ∀ i', s ≤ i' → i' < windowEnd tB s →
        simplify (tB.getD i' []) ≠ simplify (dA.getD o' [])) ∧
      classifyUnit dA [] tB s =
        UnitClass.split (dA.take o) (dA.drop o)
          (sliceL tB i (i + (dA.length - o)))) ∧
    (resyncSearch dA tB s = none →
      (∀ o' < dA.length, ∀ i', s ≤ i' → i' < windowEnd tB s →
        simplify (tB.getD i' []) ≠ simplify (dA.getD o' [])) ∧
      classifyUnit dA [] tB s = UnitClass.pureDelete dA) := by
  have hpos : 0 < dA.length := List.length_pos.2 hne
  constructor
  · intro o i h
    obtain ⟨o', rfl, h2, h3, h4⟩ := ((rsGo_spec tB s dA 0).1 o i h)
    simp only [Nat.zero_add] at *
    obtain ⟨g1, g2, g3, g4⟩ := searchGo_some tB _ _ _ _ h3
    refine ⟨h2, g1, by omega, g3, fun i' u1 u2 => g4 i' u1 u2, ?_, ?_⟩
    · intro o'' ho'' i' u1 u2
      exact searchGo_none tB _ _ _ (h4 o'' ho'') i' u1 (by omega)
    · unfold classifyUnit
      rw [if_pos ⟨hpos, rfl⟩]
      unfold classifyDeletion
      rw [h]
      show UnitClass.split (dA.take o') (dA.drop o')
        (sliceL tB i (i + (dA.drop o').length)) = _
      rw [List.length_drop]
  · intro h
    constructor
    · intro o' ho' i' u1 u2
      exact searchGo_none tB _ _ _ ((rsGo_spec tB s dA 0).2 h o' ho') i' u1 (by omega)
    · unfold classifyUnit
      rw [if_pos ⟨hpos, rfl⟩]
      unfold classifyDeletion
      rw [h]

theorem resync_deletion_classifier_witness :
    ([strN "p", strN "q"] : List (List Nat)) ≠ [] ∧
      resyncSearch [strN "p", strN "q"] [strN "q"] 0 = some (1, 0) ∧
      classifyUnit [strN "p", strN "q"] [] [strN "q"] 0 =
        UnitClass.split [strN "p"] [strN "q"] [strN "q"] ∧
      resyncSearch [strN "p"] [strN "x"] 0 = none ∧
      classifyUnit [strN "p"] [] [strN "x"] 0 =
        UnitClass.pureDelete [strN "p"] := by
  refine ⟨by decide, by decide, ?_, by decide, ?_⟩
  · have h := ((resync_deletion_classifier [strN "p", strN "q"] [strN "q"] 0
      (by decide)).1 1 0 (by decide)).2.2.2.2.2.2
    exact h.trans (by decide)
  · exact ((resync_deletion_classifier [strN "p"] [strN "x"] 0
      (by decide)).2 (by decide)).2

/-- C2: the insertion branch performs no symmetric resync search — it
classifies the whole unit as an added section regardless of the other
document and of any sync point.  On the unit with original side empty and
revised side `["p", "q"]`, where the original document continues with
`"q"` right at the recorded sync point 0, the symmetric search that the
spec prescribes (the deletion-branch search with the roles of the
documents swapped) finds the resync `(offset 1, index 0)` and would split
the unit into `["p"]` truly inserted and `["q"]` common; the code instead
returns the whole unit as inserted. -/
theorem insertion_branch_no_resync :
    (∀ (tB : List (List Nat)) (sB : Nat),
      classifyUnit [] [strN "p", strN "q"] tB sB =
        UnitClass.pureInsert [strN "p", strN "q"]) ∧
    resyncSearch [strN "p", strN "q"] [strN "q"] 0 = some (1, 0) ∧
    classifyDeletion [strN "p", strN "q"] [strN "q"] 0 =
      some ([strN "p"], [strN "q"], [strN "q"]) :=
  ⟨fun _ _ => rfl, by decide, by decide⟩

/-! ## Session navigation (source lines 166–176)

Per rerun: `if "nav" not in st.session_state: st.session_state.nav = 0`
then `st.session_state.nav = min(st.session_state.nav, len(real_diffs)-1)`;
the Previous button runs `max(0, nav - 1)`, the Next button
`min(count - 1, nav + 1)`.  This is the complete set of updates to the
navigation index; none of them reads the anchor input. -/

def navInit (nav : Option Nat) : Nat := nav.getD 0

def navReclamp (nav count : Nat) : Nat := min nav (count - 1)

def navPrev (nav : Nat) : Nat := max 0 (nav - 1)

def navNext (count nav : Nat) : Nat := min (count - 1) (nav + 1)

/-- C9 counterexample: the index is not reset when the anchor changes.
Lines 166–167 are the whole per-rerun update of the stored index; they
read only the previous index and the new unit count, never the anchor, so
after an anchor change a session holding index 1 with 2 units in the new
list keeps index 1 instead of the claimed reset to 0. -/
theorem nav_not_reset_on_anchor_cx :
    navReclamp (navInit (some 1)) 2 = 1 ∧ (1 : Nat) ≠ 0 := by decide

/-- C9 (amended): the navigation index is always kept within
`[0, count-1]` — the rerun re-clamp bounds any stored index (including
after the list shrinks), and Previous/Next clamp at both ends — but it is
NOT reset to 0 when the anchor input changes (it is merely re-clamped). -/
theorem nav_clamped (count : Nat) (_h : 1 ≤ count) :
    (∀ nav : Option Nat, navReclamp (navInit nav) count ≤ count - 1) ∧
    (∀ n : Nat, n ≤ count - 1 →
      navPrev n ≤ count - 1 ∧ navNext count n ≤ count - 1) := by
  constructor
  · intro nav
    exact Nat.min_le_right _ _
  · intro n hn
    constructor
    · simp only [navPrev]
      omega
    · exact Nat.min_le_left _ _

theorem nav_clamped_witness :
    1 ≤ 3 ∧ navReclamp (navInit (some 7)) 3 ≤ 3 - 1 ∧
      navPrev 0 ≤ 3 - 1 ∧ navNext 3 2 ≤ 3 - 1 :=
  ⟨by decide, (nav_clamped 3 (by decide)).1 (some 7),
    ((nav_clamped 3 (by decide)).2 0 (by decide)).1,
    ((nav_clamped 3 (by decide)).2 2 (by decide)).2⟩

/-! ## Range bounds of `find_longest_match`

`find_longest_match(alo, ahi, blo, bhi)` returns a block inside the
requested window: `alo ≤ i`, `blo ≤ j`, `i + k ≤ ahi`, `j + k ≤ bhi`.
These bounds drive the well-formedness of `get_matching_blocks` and
`get_opcodes` below. -/

theorem innerFLM_bounds (alo ahi blo bhi i : Nat) (j2len : Nat → Nat)
    (hi1 : alo ≤ i) (hi2 : i < ahi)
    (hj : ∀ j, j2len j = 0 ∨ (j2len j + alo ≤ i ∧ j2len j + blo ≤ j + 1)) :
    ∀ (js : List Nat) (acc : Nat → Nat) (best : Block),
      (∀ j ∈ js, blo ≤ j ∧ j < bhi) →
      (∀ j, acc j = 0 ∨ (acc j + alo ≤ i + 1 ∧ acc j + blo ≤ j + 1)) →
      alo ≤ best.i → blo ≤ best.j →
      best.i + best.k ≤ ahi → best.j + best.k ≤ bhi →
      (∀ j, (innerFLM i j2len js acc best).1 j = 0 ∨
          ((innerFLM i j2len js acc best).1 j + alo ≤ i + 1 ∧
           (innerFLM i j2len js acc best).1 j + blo ≤ j + 1)) ∧
      alo ≤ (innerFLM i j2len js acc best).2.i ∧
      blo ≤ (innerFLM i j2len js acc best).2.j ∧
      (innerFLM i j2len js acc best).2.i + (innerFLM i j2len js acc best).2.k ≤ ahi ∧
      (innerFLM i j2len js acc best).2.j + (innerFLM i j2len js acc best).2.k ≤ bhi := by
  intro js
  induction js with
  | nil =>
    intro acc best hjs hacc b1 b2 b3 b4
    exact ⟨hacc, b1, b2, b3, b4⟩
  | cons j js ih =>
    intro acc best hjs hacc b1 b2 b3 b4
    have hjmem := hjs j (List.mem_cons_self j js)
    have hk : ((if j = 0 then 0 else j2len (j - 1)) + 1) + alo ≤ i + 1 ∧
        ((if j = 0 then 0 else j2len (j - 1)) + 1) + blo ≤ j + 1 := by
      by_cases hj0 : j = 0
      · subst hj0
        rw [if_pos rfl]
        omega
      · rw [if_neg hj0]
        rcases hj (j - 1) with h0 | ⟨ha, hb⟩
        · rw [h0]; omega
        · omega
    simp only [innerFLM]
    have hb' : alo ≤ (if best.k < (if j = 0 then 0 else j2len (j - 1)) + 1
          then (⟨i + 1 - ((if j = 0 then 0 else j2len (j - 1)) + 1),
            j + 1 - ((if j = 0 then 0 else j2len (j - 1)) + 1),
            (if j = 0 then 0 else j2len (j - 1)) + 1⟩ : Block) else best).i ∧
        blo ≤ (if best.k < (if j = 0 then 0 else j2len (j - 1)) + 1
          then (⟨i + 1 - ((if j = 0 then 0 else j2len (j - 1)) + 1),
            j + 1 - ((if j = 0 then 0 else j2len (j - 1)) + 1),
            (if j = 0 then 0 else j2len (j - 1)) + 1⟩ : Block) else best).j ∧
        (if best.k < (if j = 0 then 0 else j2len (j - 1)) + 1
          then (⟨i + 1 - ((if j = 0 then 0 else j2len (j - 1)) + 1),
            j + 1 - ((if j = 0 then 0 else j2len (j - 1)) + 1),
            (if j = 0 then 0 else j2len (j - 1)) + 1⟩ : Block) else best).i +
          (if best.k < (if j = 0 then 0 else j2len (j - 1)) + 1
          then (⟨i + 1 - ((if j = 0 then 0 else j2len (j - 1)) + 1),
            j + 1 - ((if j = 0 then 0 else j2len (j - 1)) + 1),
            (if j = 0 then 0 else j2len (j - 1)) + 1⟩ : Block) else best).k ≤ ahi ∧
        (if best.k < (if j = 0 then 0 else j2len (j - 1)) + 1
          then (⟨i + 1 - ((if j = 0 then 0 else j2len (j - 1)) + 1),
            j + 1 - ((if j = 0 then 0 else j2len (j - 1)) + 1),
            (if j = 0 then 0 else j2len (j - 1)) + 1⟩ : Block) else best).j +
          (if best.k < (if j = 0 then 0 else j2len (j - 1)) + 1
          then (⟨i + 1 - ((if j = 0 then 0 else j2len (j - 1)) + 1),
            j + 1 - ((if j = 0 then 0 else j2len (j - 1)) + 1),
            (if j = 0 then 0 else j2len (j - 1)) + 1⟩ : Block) else best).k ≤ bhi := by
      by_cases hlt : best.k < (if j = 0 then 0 else j2len (j - 1)) + 1
      · simp only [if_pos hlt]
        omega
      · simp only [if_neg hlt]
        exact ⟨b1, b2, b3, b4⟩
    apply ih
    · exact fun j' hmem => hjs j' (List.mem_cons_of_mem _ hmem)
    · intro j'
      by_cases he : j' = j
      · subst he
        right
        rw [if_pos rfl]
        exact hk
      · rw [if_neg he]
        exact hacc j'
    · exact hb'.1
    · exact hb'.2.1
    · exact hb'.2.2.1
    · exact hb'.2.2.2

theorem outerFLM_bounds (a b : List (List Nat)) (alo ahi blo bhi : Nat) :
    ∀ (cnt start : Nat) (j2len : Nat → Nat) (best : Block),
      alo ≤ start → start + cnt ≤ ahi →
      (∀ j, j2len j = 0 ∨ (j2len j + alo ≤ start ∧ j2len j + blo ≤ j + 1)) →
      alo ≤ best.i → blo ≤ best.j →
      best.i + best.k ≤ ahi → best.j + best.k ≤ bhi →
      alo ≤ (outerFLM a b blo bhi (List.range' start cnt) j2len best).i ∧
      blo ≤ (outerFLM a b blo bhi (List.range' start cnt) j2len best).j ∧
      (outerFLM a b blo bhi (List.range' start cnt) j2len best).i +
        (outerFLM a b blo bhi (List.range' start cnt) j2len best).k ≤ ahi ∧
      (outerFLM a b blo bhi (List.range' start cnt) j2len best).j +
        (outerFLM a b blo bhi (List.range' start cnt) j2len best).k ≤ bhi := by
  intro cnt
  induction cnt with
  | zero =>
    intro start j2len best _ _ _ b1 b2 b3 b4
    exact ⟨b1, b2, b3, b4⟩
  | succ cnt ih =>
    intro start j2len best h1 h2 hj b1 b2 b3 b4
    rw [List.range'_succ]
    simp only [outerFLM]
    have hmem : ∀ j ∈ (b2j b (a.getD start [])).filter
        (fun j => decide (blo ≤ j) && decide (j < bhi)), blo ≤ j ∧ j < bhi := by
      intro j hjf
      have := List.of_mem_filter hjf
      simpa using this
    have hinner := innerFLM_bounds alo ahi blo bhi start j2len h1 (by omega) hj
      ((b2j b (a.getD start [])).filter
        (fun j => decide (blo ≤ j) && decide (j < bhi)))
      (fun _ => 0) best hmem (fun _ => Or.inl rfl) b1 b2 b3 b4
    exact ih (start + 1) _ _ (by omega) (by omega) hinner.1
      hinner.2.1 hinner.2.2.1 hinner.2.2.2.1 hinner.2.2.2.2

theorem extBack_bounds (a b : List (List Nat)) (alo blo ahi bhi : Nat) :
    ∀ (fuel : Nat) (best : Block),
      alo ≤ best.i → blo ≤ best.j →
      best.i + best.k ≤ ahi → best.j + best.k ≤ bhi →
      alo ≤ (extBack a b alo blo fuel best).i ∧
      blo ≤ (extBack a b alo blo fuel best).j ∧
      (extBack a b alo blo fuel best).i + (extBack a b alo blo fuel best).k ≤ ahi ∧
      (extBack a b alo blo fuel best).j + (extBack a b alo blo fuel best).k ≤ bhi := by
  intro fuel
  induction fuel with
  | zero => intro best b1 b2 b3 b4; exact ⟨b1, b2, b3, b4⟩
  | succ fuel ih =>
    intro best b1 b2 b3 b4
    by_cases hg : alo < best.i ∧ blo < best.j ∧
        a.getD (best.i - 1) [] = b.getD (best.j - 1) []
    · have hstep : extBack a b alo blo (fuel + 1) best =
          extBack a b alo blo fuel ⟨best.i - 1, best.j - 1, best.k + 1⟩ := by
        show (if alo < best.i ∧ blo < best.j ∧
            a.getD (best.i - 1) [] = b.getD (best.j - 1) [] then
          extBack a b alo blo fuel ⟨best.i - 1, best.j - 1, best.k + 1⟩
          else best) = _
        rw [if_pos hg]
      rw [hstep]
      exact ih ⟨best.i - 1, best.j - 1, best.k + 1⟩
        (by show alo ≤ best.i - 1; omega) (by show blo ≤ best.j - 1; omega)
        (by show best.i - 1 + (best.k + 1) ≤ ahi; omega)
        (by show best.j - 1 + (best.k + 1) ≤ bhi; omega)
    · rw [extBack_no_step a b alo blo (fuel + 1) best hg]
      exact ⟨b1, b2, b3, b4⟩

theorem extFwd_bounds (a b : List (List Nat)) (ahi bhi : Nat) :
    ∀ (fuel : Nat) (best : Block),
      best.i + best.k ≤ ahi → best.j + best.k ≤ bhi →
      best.i = (extFwd a b ahi bhi fuel best).i ∧
      best.j = (extFwd a b ahi bhi fuel best).j ∧
      (extFwd a b ahi bhi fuel best).i + (extFwd a b ahi bhi fuel best).k ≤ ahi ∧
      (extFwd a b ahi bhi fuel best).j + (extFwd a b ahi bhi fuel best).k ≤ bhi := by
  intro fuel
  induction fuel with
  | zero => intro best b3 b4; exact ⟨rfl, rfl, b3, b4⟩
  | succ fuel ih =>
    intro best b3 b4
    by_cases hg : best.i + best.k < ahi ∧ best.j + best.k < bhi ∧
        a.getD (best.i + best.k) [] = b.getD (best.j + best.k) []
    · have hstep : extFwd a b ahi bhi (fuel + 1) best =
          extFwd a b ahi bhi fuel ⟨best.i, best.j, best.k + 1⟩ := by
        show (if best.i + best.k < ahi ∧ best.j + best.k < bhi ∧
            a.getD (best.i + best.k) [] = b.getD (best.j + best.k) [] then
          extFwd a b ahi bhi fuel ⟨best.i, best.j, best.k + 1⟩ else best) = _
        rw [if_pos hg]
      rw [hstep]
      exact ih ⟨best.i, best.j, best.k + 1⟩
        (by show best.i + (best.k + 1) ≤ ahi; omega)
        (by show best.j + (best.k + 1) ≤ bhi; omega)
    · rw [extFwd_no_step a b ahi bhi (fuel + 1) best hg]
      exact ⟨rfl, rfl, b3, b4⟩

theorem flm_bounds (a b : List (List Nat)) (alo ahi blo bhi : Nat)
    (h1 : alo ≤ ahi) (h2 : blo ≤ bhi) :
    alo ≤ (findLongestMatch a b alo ahi blo bhi).i ∧
    blo ≤ (findLongestMatch a b alo ahi blo bhi).j ∧
    (findLongestMatch a b alo ahi blo bhi).i +
      (findLongestMatch a b alo ahi blo bhi).k ≤ ahi ∧
    (findLongestMatch a b alo ahi blo bhi).j +
      (findLongestMatch a b alo ahi blo bhi).k ≤ bhi := by
  unfold findLongestMatch
  have h0 := outerFLM_bounds a b alo ahi blo bhi (ahi - alo) alo
    (fun _ => 0) ⟨alo, blo, 0⟩ (Nat.le_refl _) (by omega) (fun _ => Or.inl rfl)
    (by show alo ≤ alo; omega) (by show blo ≤ blo; omega)
    (by show alo + 0 ≤ ahi; omega) (by show blo + 0 ≤ bhi; omega)
  have hb := extBack_bounds a b alo blo ahi bhi
    (outerFLM a b blo bhi (List.range' alo (ahi - alo)) (fun _ => 0)
      ⟨alo, blo, 0⟩).i
    (outerFLM a b blo bhi (List.range' alo (ahi - alo)) (fun _ => 0)
      ⟨alo, blo, 0⟩)
    h0.1 h0.2.1 h0.2.2.1 h0.2.2.2
  have hf := extFwd_bounds a b ahi bhi ahi
    (extBack a b alo blo
      (outerFLM a b blo bhi (List.range' alo (ahi - alo)) (fun _ => 0)
        ⟨alo, blo, 0⟩).i
      (outerFLM a b blo bhi (List.range' alo (ahi - alo)) (fun _ => 0)
        ⟨alo, blo, 0⟩))
    hb.2.2.1 hb.2.2.2
  exact ⟨hf.1 ▸ hb.1, hf.2.1 ▸ hb.2.1, hf.2.2.1, hf.2.2.2⟩

/-! ## Well-formedness of the matching blocks and opcodes

The blocks produced by the recursion are an ordered, non-overlapping chain
inside the window; after adjacency merging and the terminator they advance
a cursor from `(0,0)` to `(la, lb)`, and the emitted opcodes tile both
index spaces without gaps. -/

/-- Blocks at or after cursor `(ci, cj)`, each nonempty, non-overlapping,
in order, all ending within `(n, m)`. -/
def Chained : Nat → Nat → List Block → Nat → Nat → Prop
  | _, _, [], _, _ => True
  | ci, cj, blk :: rest, n, m =>
    ci ≤ blk.i ∧ cj ≤ blk.j ∧ 1 ≤ blk.k ∧ blk.i + blk.k ≤ n ∧
      blk.j + blk.k ≤ m ∧ Chained (blk.i + blk.k) (blk.j + blk.k) rest n m

theorem Chained_mono_lo {ci cj ci' cj' n m : Nat} {L : List Block}
    (h : Chained ci cj L n m) (h1 : ci' ≤ ci) (h2 : cj' ≤ cj) :
    Chained ci' cj' L n m := by
  cases L with
  | nil => trivial
  | cons blk rest =>
    obtain ⟨a1, a2, a3, a4, a5, a6⟩ := h
    exact ⟨by omega, by omega, a3, a4, a5, a6⟩

theorem Chained_mono_hi {ci cj n m n' m' : Nat} {L : List Block}
    (h : Chained ci cj L n m) (h1 : n ≤ n') (h2 : m ≤ m') :
    Chained ci cj L n' m' := by
  induction L generalizing ci cj with
  | nil => trivial
  | cons blk rest ih =>
    obtain ⟨a1, a2, a3, a4, a5, a6⟩ := h
    exact ⟨a1, a2, a3, by omega, by omega, ih a6⟩

theorem Chained_append {n m : Nat} : ∀ {L M : List Block} {ci cj nb mb : Nat},
    Chained ci cj L nb mb → Chained nb mb M n m →
    ci ≤ nb → cj ≤ mb → nb ≤ n → mb ≤ m →
    Chained ci cj (L ++ M) n m := by
  intro L
  induction L with
  | nil =>
    intro M ci cj nb mb _ hM h1 h2 _ _
    exact Chained_mono_lo hM h1 h2
  | cons blk rest ih =>
    intro M ci cj nb mb hL hM h1 h2 h3 h4
    obtain ⟨a1, a2, a3, a4, a5, a6⟩ := hL
    exact ⟨a1, a2, a3, by omega, by omega, ih a6 hM a4 a5 h3 h4⟩

theorem mbAux_chained (a b : List (List Nat)) :
    ∀ (fuel alo ahi blo bhi : Nat),
      alo ≤ ahi → blo ≤ bhi →
      (ahi - alo) + (bhi - blo) < fuel →
      Chained alo blo (mbAux a b fuel alo ahi blo bhi) ahi bhi := by
  intro fuel
  induction fuel with
  | zero => intro alo ahi blo bhi _ _ h; omega
  | succ fuel ih =>
    intro alo ahi blo bhi hab hbb hfuel
    obtain ⟨f1, f2, f3, f4⟩ := flm_bounds a b alo ahi blo bhi hab hbb
    show Chained alo blo
      (let m := findLongestMatch a b alo ahi blo bhi
       if 0 < m.k then
        (if alo < m.i ∧ blo < m.j then mbAux a b fuel alo m.i blo m.j else []) ++
          m :: (if m.i + m.k < ahi ∧ m.j + m.k < bhi then
                  mbAux a b fuel (m.i + m.k) ahi (m.j + m.k) bhi
                else [])
       else []) ahi bhi
    set m := findLongestMatch a b alo ahi blo bhi with hm
    by_cases hk : 0 < m.k
    · rw [if_pos hk]
      have hL : Chained alo blo
          (if alo < m.i ∧ blo < m.j then mbAux a b fuel alo m.i blo m.j else [])
          m.i m.j := by
        by_cases hg : alo < m.i ∧ blo < m.j
        · rw [if_pos hg]
          exact ih alo m.i blo m.j (by omega) (by omega) (by omega)
        · rw [if_neg hg]
          trivial
      have hR : Chained (m.i + m.k) (m.j + m.k)
          (if m.i + m.k < ahi ∧ m.j + m.k < bhi then
            mbAux a b fuel (m.i + m.k) ahi (m.j + m.k) bhi
          else []) ahi bhi := by
        by_cases hg : m.i + m.k < ahi ∧ m.j + m.k < bhi
        · rw [if_pos hg]
          exact ih (m.i + m.k) ahi (m.j + m.k) bhi (by omega) (by omega) (by omega)
        · rw [if_neg hg]
          trivial
      exact Chained_append hL ⟨Nat.le_refl _, Nat.le_refl _, hk, f3, f4, hR⟩
        f1 f2 (by omega) (by omega)
    · rw [if_neg hk]
      trivial

theorem nonAdjacentGo_chained {n m : Nat} :
    ∀ (L : List Block) (i1 j1 k1 : Nat),
      Chained (i1 + k1) (j1 + k1) L n m →
      i1 + k1 ≤ n → j1 + k1 ≤ m →
      Chained i1 j1 (nonAdjacentGo i1 j1 k1 L) n m := by
  intro L
  induction L with
  | nil =>
    intro i1 j1 k1 _ h1 h2
    show Chained i1 j1 (if k1 ≠ 0 then [⟨i1, j1, k1⟩] else []) n m
    by_cases hk : k1 ≠ 0
    · rw [if_pos hk]
      exact ⟨Nat.le_refl _, Nat.le_refl _, by show 1 ≤ k1; omega, h1, h2, trivial⟩
    · rw [if_neg hk]
      trivial
  | cons blk rest ih =>
    intro i1 j1 k1 hC h1 h2
    obtain ⟨a1, a2, a3, a4, a5, a6⟩ := hC
    show Chained i1 j1
      (if i1 + k1 = blk.i ∧ j1 + k1 = blk.j then
        nonAdjacentGo i1 j1 (k1 + blk.k) rest
       else (if k1 ≠ 0 then [⟨i1, j1, k1⟩] else []) ++
        nonAdjacentGo blk.i blk.j blk.k rest) n m
    by_cases hadj : i1 + k1 = blk.i ∧ j1 + k1 = blk.j
    · rw [if_pos hadj]
      apply ih i1 j1 (k1 + blk.k)
      · have : i1 + (k1 + blk.k) = blk.i + blk.k := by omega
        rw [this]
        have : j1 + (k1 + blk.k) = blk.j + blk.k := by omega
        rw [this]
        exact a6
      · omega
      · omega
    · rw [if_neg hadj]
      have hgo : Chained blk.i blk.j (nonAdjacentGo blk.i blk.j blk.k rest) n m :=
        ih blk.i blk.j blk.k a6 a4 a5
      by_cases hk : k1 ≠ 0
      · rw [if_pos hk]
        exact ⟨Nat.le_refl _, Nat.le_refl _, by show 1 ≤ k1; omega,
          by show i1 + k1 ≤ n; omega, by show j1 + k1 ≤ m; omega,
          Chained_mono_lo hgo a1 a2⟩
      · rw [if_neg hk]
        rw [List.nil_append]
        exact Chained_mono_lo hgo (by omega) (by omega)

/-- Cursor-consistent block list, ending exactly at `(n, m)` via the
terminator block. -/
def BlocksOK : Nat → Nat → List Block → Nat → Nat → Prop
  | ci, cj, [], n, m => ci = n ∧ cj = m
  | ci, cj, blk :: rest, n, m =>
    ci ≤ blk.i ∧ cj ≤ blk.j ∧ blk.i + blk.k ≤ n ∧ blk.j + blk.k ≤ m ∧
      BlocksOK (blk.i + blk.k) (blk.j + blk.k) rest n m

theorem chained_terminal {n m : Nat} :
    ∀ (L : List Block) (ci cj : Nat),
      Chained ci cj L n m → ci ≤ n → cj ≤ m →
      BlocksOK ci cj (L ++ [⟨n, m, 0⟩]) n m := by
  intro L
  induction L with
  | nil =>
    intro ci cj _ h1 h2
    exact ⟨h1, h2, by show n + 0 ≤ n; omega, by show m + 0 ≤ m; omega,
      by show n + 0 = n; omega, by show m + 0 = m; omega⟩
  | cons blk rest ih =>
    intro ci cj hC h1 h2
    obtain ⟨a1, a2, a3, a4, a5, a6⟩ := hC
    exact ⟨a1, a2, a4, a5, ih (blk.i + blk.k) (blk.j + blk.k) a6 a4 a5⟩

theorem matchingBlocks_ok (a b : List (List Nat)) :
    BlocksOK 0 0 (matchingBlocks a b) a.length b.length := by
  unfold matchingBlocks
  apply chained_terminal _ 0 0 _ (Nat.zero_le _) (Nat.zero_le _)
  have hchain := mbAux_chained a b (a.length + b.length + 1) 0 a.length 0 b.length
    (Nat.zero_le _) (Nat.zero_le _) (by omega)
  exact nonAdjacentGo_chained _ 0 0 0 (by simpa using hchain)
    (Nat.zero_le _) (Nat.zero_le _)

/-- Opcodes tiling both index spaces from `(ia, ja)` to `(n, m)`. -/
def TilesFrom : Nat → Nat → List Op → Nat → Nat → Prop
  | ia, ja, [], n, m => ia = n ∧ ja = m
  | ia, ja, op :: rest, n, m =>
    op.i1 = ia ∧ op.j1 = ja ∧ ia ≤ op.i2 ∧ ja ≤ op.j2 ∧
      TilesFrom op.i2 op.j2 rest n m

theorem opcodesGo_tiles {n m : Nat} :
    ∀ (L : List Block) (ci cj : Nat),
      BlocksOK ci cj L n m →
      TilesFrom ci cj (opcodesGo ci cj L) n m := by
  intro L
  induction L with
  | nil => intro ci cj h; exact h
  | cons blk rest ih =>
    intro ci cj h
    obtain ⟨a1, a2, a3, a4, a5⟩ := h
    have htail := ih (blk.i + blk.k) (blk.j + blk.k) a5
    show TilesFrom ci cj
      ((if ci < blk.i ∧ cj < blk.j then [⟨Tag.replace, ci, blk.i, cj, blk.j⟩]
        else if ci < blk.i then [⟨Tag.delete, ci, blk.i, cj, blk.j⟩]
        else if cj < blk.j then [⟨Tag.insert, ci, blk.i, cj, blk.j⟩]
        else []) ++
        (if 0 < blk.k then
          [⟨Tag.equal, blk.i, blk.i + blk.k, blk.j, blk.j + blk.k⟩] else []) ++
        opcodesGo (blk.i + blk.k) (blk.j + blk.k) rest) n m
    have heq : TilesFrom blk.i blk.j
        ((if 0 < blk.k then
          [⟨Tag.equal, blk.i, blk.i + blk.k, blk.j, blk.j + blk.k⟩] else []) ++
          opcodesGo (blk.i + blk.k) (blk.j + blk.k) rest) n m := by
      by_cases hk : 0 < blk.k
      · rw [if_pos hk]
        exact ⟨rfl, rfl, by show blk.i ≤ blk.i + blk.k; omega,
          by show blk.j ≤ blk.j + blk.k; omega, htail⟩
      · rw [if_neg hk]
        rw [List.nil_append]
        have hz : blk.k = 0 := by omega
        rw [hz, Nat.add_zero, Nat.add_zero] at htail ⊢
        exact htail
    by_cases hg1 : ci < blk.i ∧ cj < blk.j
    · rw [if_pos hg1, List.cons_append, List.nil_append]
      exact ⟨rfl, rfl, by show ci ≤ blk.i; omega, by show cj ≤ blk.j; omega, heq⟩
    · rw [if_neg hg1]
      by_cases hg2 : ci < blk.i
      · rw [if_pos hg2, List.cons_append, List.nil_append]
        have hcj : cj = blk.j := by omega
        subst hcj
        exact ⟨rfl, rfl, by show ci ≤ blk.i; omega,
          by show blk.j ≤ blk.j; omega, heq⟩
      · by_cases hg3 : cj < blk.j
        · rw [if_neg hg2, if_pos hg3, List.cons_append, List.nil_append]
          have hci : ci = blk.i := by omega
          subst hci
          exact ⟨rfl, rfl, by show blk.i ≤ blk.i; omega,
            by show cj ≤ blk.j; omega, heq⟩
        · rw [if_neg hg2, if_neg hg3, List.nil_append]
          have h1 : ci = blk.i := by omega
          have h2 : cj = blk.j := by omega
          subst h1
          subst h2
          exact heq

theorem getOpcodes_tiles (a b : List (List Nat)) :
    TilesFrom 0 0 (getOpcodes a b) a.length b.length :=
  opcodesGo_tiles (matchingBlocks a b) 0 0 (matchingBlocks_ok a b)

/-! ## Word preservation of the highlighter -/

theorem sliceL_self {α : Type} (l : List α) (x : Nat) : sliceL l x x = [] := by
  simp [sliceL]

theorem sliceL_split {α : Type} (l : List α) (x y z : Nat)
    (h1 : x ≤ y) (h2 : y ≤ z) :
    sliceL l x z = sliceL l x y ++ sliceL l y z := by
  unfold sliceL
  have hz : z - x = (y - x) + (z - y) := by omega
  rw [hz, List.take_add, List.drop_drop]
  have hd : x + (y - x) = y := by omega
  rw [hd]

theorem TilesFrom_le {n m : Nat} : ∀ (ops : List Op) (ia ja : Nat),
    TilesFrom ia ja ops n m → ia ≤ n ∧ ja ≤ m := by
  intro ops
  induction ops with
  | nil => intro ia ja h; exact ⟨h.1.le, h.2.le⟩
  | cons op rest ih =>
    intro ia ja h
    obtain ⟨e1, e2, e3, e4, e5⟩ := h
    have := ih op.i2 op.j2 e5
    omega

theorem mem_sliceL {α : Type} {w : α} {l : List α} {x y : Nat}
    (h : w ∈ sliceL l x y) : w ∈ l := by
  unfold sliceL at h
  exact List.mem_of_mem_drop (List.mem_of_mem_take h)

theorem flatten_words_of_words : ∀ (sl : List (List Nat)),
    (∀ w ∈ sl, (∀ c ∈ w, isWsN c = false) ∧ w ≠ []) →
    (sl.map words).flatten = sl := by
  intro sl
  induction sl with
  | nil => intro _; rfl
  | cons w rest ih =>
    intro h
    have hw := h w (List.mem_cons_self w rest)
    rw [List.map_cons, List.flatten_cons, words_of_word w hw.1 hw.2,
      ih (fun w' hw' => h w' (List.mem_cons_of_mem _ hw'))]
    rfl

theorem joinSpace_ne_nil : ∀ (sl : List (List Nat)), sl ≠ [] →
    (∀ w ∈ sl, w ≠ []) → joinSpace sl ≠ [] := by
  intro sl hne h
  cases sl with
  | nil => exact absurd rfl hne
  | cons w rest =>
    cases rest with
    | nil => exact h w (List.mem_cons_self w [])
    | cons w2 r2 =>
      show w ++ 32 :: joinSpace (w2 :: r2) ≠ []
      cases w with
      | nil => simp
      | cons c cs => simp

theorem hlGo_words_slices (wa wb : List (List Nat))
    (hwa : ∀ w ∈ wa, (∀ c ∈ w, isWsN c = false) ∧ w ≠ [])
    (hwb : ∀ w ∈ wb, (∀ c ∈ w, isWsN c = false) ∧ w ≠ []) :
    ∀ (ops : List Op) (ia ja : Nat),
      TilesFrom ia ja ops wa.length wb.length →
      ((hlGo wa wb ops).1.map (fun s => words s.2)).flatten =
          sliceL wa ia wa.length ∧
      ((hlGo wa wb ops).2.map (fun s => words s.2)).flatten =
          sliceL wb ja wb.length := by
  intro ops
  induction ops with
  | nil =>
    intro ia ja h
    obtain ⟨rfl, rfl⟩ := h
    rw [sliceL_self, sliceL_self]
    exact ⟨rfl, rfl⟩
  | cons op rest ih =>
    intro ia ja h
    obtain ⟨e1, e2, e3, e4, e5⟩ := h
    have hrest := ih op.i2 op.j2 e5
    have hle := TilesFrom_le rest op.i2 op.j2 e5
    have hwsliceA : ∀ w ∈ sliceL wa op.i1 op.i2,
        (∀ c ∈ w, isWsN c = false) ∧ w ≠ [] :=
      fun w hw => hwa w (mem_sliceL hw)
    have hwsliceB : ∀ w ∈ sliceL wb op.j1 op.j2,
        (∀ c ∈ w, isWsN c = false) ∧ w ≠ [] :=
      fun w hw => hwb w (mem_sliceL hw)
    have hblockA : words (joinSpace (sliceL wa op.i1 op.i2)) =
        sliceL wa op.i1 op.i2 := by
      rw [words_joinSpace, flatten_words_of_words _ hwsliceA]
    have hblockB : words (joinSpace (sliceL wb op.j1 op.j2)) =
        sliceL wb op.j1 op.j2 := by
      rw [words_joinSpace, flatten_words_of_words _ hwsliceB]
    have hsplitA : sliceL wa ia wa.length =
        sliceL wa op.i1 op.i2 ++ sliceL wa op.i2 wa.length := by
      rw [← e1] at e3 ⊢
      exact sliceL_split wa op.i1 op.i2 wa.length e3 hle.1
    have hsplitB : sliceL wb ja wb.length =
        sliceL wb op.j1 op.j2 ++ sliceL wb op.j2 wb.length := by
      rw [← e2] at e4 ⊢
      exact sliceL_split wb op.j1 op.j2 wb.length e4 hle.2
    by_cases hc : op.tag = Tag.equal ∨
        simplify (joinSpace (sliceL wa op.i1 op.i2)) =
          simplify (joinSpace (sliceL wb op.j1 op.j2))
    · have hun : hlGo wa wb (op :: rest) =
          ((false, joinSpace (sliceL wa op.i1 op.i2)) :: (hlGo wa wb rest).1,
           (false, joinSpace (sliceL wb op.j1 op.j2)) :: (hlGo wa wb rest).2) := by
        show (if op.tag = Tag.equal ∨
            simplify (joinSpace (sliceL wa op.i1 op.i2)) =
              simplify (joinSpace (sliceL wb op.j1 op.j2)) then
          ((false, joinSpace (sliceL wa op.i1 op.i2)) :: (hlGo wa wb rest).1,
           (false, joinSpace (sliceL wb op.j1 op.j2)) :: (hlGo wa wb rest).2)
          else
          ((if joinSpace (sliceL wa op.i1 op.i2) ≠ [] then
              [(true, joinSpace (sliceL wa op.i1 op.i2))] else []) ++
            (hlGo wa wb rest).1,
           (if joinSpace (sliceL wb op.j1 op.j2) ≠ [] then
              [(true, joinSpace (sliceL wb op.j1 op.j2))] else []) ++
            (hlGo wa wb rest).2)) = _
        rw [if_pos hc]
      rw [hun]
      constructor
      · rw [List.map_cons, List.flatten_cons]
        show words (joinSpace (sliceL wa op.i1 op.i2)) ++ _ = _
        rw [hblockA, hrest.1, hsplitA]
      · rw [List.map_cons, List.flatten_cons]
        show words (joinSpace (sliceL wb op.j1 op.j2)) ++ _ = _
        rw [hblockB, hrest.2, hsplitB]
    · have hch : hlGo wa wb (op :: rest) =
          ((if joinSpace (sliceL wa op.i1 op.i2) ≠ [] then
              [(true, joinSpace (sliceL wa op.i1 op.i2))] else []) ++
            (hlGo wa wb rest).1,
           (if joinSpace (sliceL wb op.j1 op.j2) ≠ [] then
              [(true, joinSpace (sliceL wb op.j1 op.j2))] else []) ++
            (hlGo wa wb rest).2) := by
        show (if op.tag = Tag.equal ∨
            simplify (joinSpace (sliceL wa op.i1 op.i2)) =
              simplify (joinSpace (sliceL wb op.j1 op.j2)) then
          ((false, joinSpace (sliceL wa op.i1 op.i2)) :: (hlGo wa wb rest).1,
           (false, joinSpace (sliceL wb op.j1 op.j2)) :: (hlGo wa wb rest).2)
          else
          ((if joinSpace (sliceL wa op.i1 op.i2) ≠ [] then
              [(true, joinSpace (sliceL wa op.i1 op.i2))] else []) ++
            (hlGo wa wb rest).1,
           (if joinSpace (sliceL wb op.j1 op.j2) ≠ [] then
              [(true, joinSpace (sliceL wb op.j1 op.j2))] else []) ++
            (hlGo wa wb rest).2)) = _
        rw [if_neg hc]
      rw [hch]
      constructor
      · by_cases hA : joinSpace (sliceL wa op.i1 op.i2) ≠ []
        · rw [if_pos hA, List.cons_append, List.nil_append, List.map_cons,
            List.flatten_cons]
          show words (joinSpace (sliceL wa op.i1 op.i2)) ++ _ = _
          rw [hblockA, hrest.1, hsplitA]
        · rw [if_neg hA]
          have hnil : sliceL wa op.i1 op.i2 = [] := by
            by_contra hne
            exact hA (joinSpace_ne_nil _ hne (fun w hw => (hwsliceA w hw).2))
          rw [List.nil_append, hrest.1, hsplitA, hnil, List.nil_append]
      · by_cases hB : joinSpace (sliceL wb op.j1 op.j2) ≠ []
        · rw [if_pos hB, List.cons_append, List.nil_append, List.map_cons,
            List.flatten_cons]
          show words (joinSpace (sliceL wb op.j1 op.j2)) ++ _ = _
          rw [hblockB, hrest.2, hsplitB]
        · rw [if_neg hB]
          have hnil : sliceL wb op.j1 op.j2 = [] := by
            by_contra hne
            exact hB (joinSpace_ne_nil _ hne (fun w hw => (hwsliceB w hw).2))
          rw [List.nil_append, hrest.2, hsplitB, hnil, List.nil_append]

/-- C10 counterexample: stripping the annotations is not exactly the
space-joined words of the input.  For `"x"` vs `"x ."`, the insert block
`"."` has empty comparison key, equal to the key of the empty left block,
so the left display receives an unchanged empty entry and the stripped
left string is `"x "` (with a trailing space from joining in the empty
entry), not `"x"`. -/
theorem highlight_strip_not_exact_cx :
    joinSpace (((highlightSpans (strN "x") (strN "x .")).1).map Prod.snd) ≠
      joinSpace (words (strN "x")) := by decide

/-- C10 (amended): the highlighter never drops, duplicates, or reorders a
word: splitting the markup-stripped output of either side back into words
yields exactly the words of that side's input text, in order.  (Exact
string equality with the space-joined input words can fail only by extra
spaces around empty unchanged entries, as in the counterexample.) -/
theorem highlight_preserves_words (ta tb : List Nat) :
    words (joinSpace ((highlightSpans ta tb).1.map Prod.snd)) = words ta ∧
    words (joinSpace ((highlightSpans ta tb).2.map Prod.snd)) = words tb := by
  have hwa := words_mem_word ta
  have hwb := words_mem_word tb
  have htiles : TilesFrom 0 0
      (getOpcodes ((words ta).map simplify) ((words tb).map simplify))
      (words ta).length (words tb).length := by
    have h := getOpcodes_tiles ((words ta).map simplify) ((words tb).map simplify)
    rw [List.length_map, List.length_map] at h
    exact h
  have hmain := hlGo_words_slices (words ta) (words tb) hwa hwb
    (getOpcodes ((words ta).map simplify) ((words tb).map simplify)) 0 0 htiles
  rw [sliceL_zero_length, sliceL_zero_length] at hmain
  constructor
  · rw [words_joinSpace, List.map_map]
    exact hmain.1
  · rw [words_joinSpace, List.map_map]
    exact hmain.2

end SmartCmp
